import Mathlib

/-!
Shallow embedding of `pdftomarkd` (`src/pdftomarkd/src/pdftomarkd/__main__.py`),
a PDF-to-Markdown converter built on the PyMuPDF (`fitz`) engine.

The PDF engine is external, so its outputs are modelled as data: a `Document`
carries the metadata dictionary values and the ordered pages; a `Page` carries
the structured block/line/span tree returned by `page.get_text("dict")`, the
plain text returned by `page.get_text()`, and the embedded images returned by
`page.get_images(full=True)` together with the bytes and extension that
`doc.extract_image` would yield for them (bytes are modelled as an opaque
`String`).  Library calls that can raise are modelled by boolean fault flags
(`raisesOnExtract` on a page for a failing `get_text`, a `writeRaises`
parameter for a failing `Path.write_text`); the converter's single broad
`except` handler is reflected in the result type.
-/

namespace PdfToMarkd

/-- One span of `page.get_text("dict")`: a text run and its font-flag bitmask. -/
structure Span where
  text : String
  flags : Nat
deriving Repr, DecidableEq

/-- One line of a text block: its ordered spans. -/
structure Line where
  spans : List Span
deriving Repr, DecidableEq

/-- A block of the dict extraction: a text block (the dict has a `"lines"` key)
or a non-text block (no `"lines"` key; skipped by the converter). -/
inductive Block where
  | text (lines : List Line)
  | nontext
deriving Repr, DecidableEq

/-- One embedded image of a page, with the data `doc.extract_image` yields for
its xref: raw bytes (modelled as an opaque string) and a format extension. -/
structure PdfImage where
  xref : Nat
  bytes : String
  ext : String
deriving Repr, DecidableEq

/-- One page of the document.  `raisesOnExtract` models the engine raising an
exception when the page's text is extracted (before any image of the page is
processed). -/
structure Page where
  blocks : List Block
  plainText : String
  images : List PdfImage
  raisesOnExtract : Bool
deriving Repr, DecidableEq

/-- The metadata dictionary values for the three keys the converter reads.
`none` models a missing key (`dict.get` returning `None`); `some ""` models the
empty string the engine reports for an unset field. -/
structure Metadata where
  title : Option String
  author : Option String
  subject : Option String
deriving Repr, DecidableEq

/-- A parsed PDF document handle's observable content. -/
structure Document where
  metadata : Metadata
  pages : List Page
deriving Repr, DecidableEq

/-- Python truthiness of a `dict.get` result: `None` and the empty string are
falsy, any other string is truthy. -/
def truthy : Option String → Bool
  | none => false
  | some s => !s.isEmpty

/-- A filesystem path, modelled as the directory components plus a base name,
mirroring `pathlib.Path`'s `parent`/`name` split. -/
structure PPath where
  dirs : List String
  base : String
deriving Repr, DecidableEq

/-- `pathlib.Path(...).suffix` of a base name: the part from the last dot on,
when that dot is neither the leading nor the trailing character, `""`
otherwise (no dot, hidden-file leading dot, or trailing dot). -/
def pathSuffix (base : String) : String :=
  let rev := base.data.reverse
  let tail := rev.takeWhile (fun c => !(c == '.'))
  if tail.length = rev.length then ""
  else if tail.length = 0 then ""
  else if tail.length + 1 = rev.length then ""
  else ⟨'.' :: tail.reverse⟩

/-- Full path of a `PPath` as write key: directory components then base name. -/
def PPath.components (p : PPath) : List String :=
  p.dirs ++ [p.base]

/-- Line 91 of the source: images go to `Path(output_path).parent` when the
output path has a suffix, else to `Path(output_path)` itself. -/
def imageDirOf (p : PPath) : List String :=
  if pathSuffix p.base ≠ "" then p.dirs else p.dirs ++ [p.base]

/-- Lines 60-67 of the source: wrap a span's text according to its font flags,
bold (`flags & 2**4`) first, italic (`flags & 2**1`) second. -/
def formatSpanText (flags : Nat) (text : String) : String :=
  let text := if flags &&& 2 ^ 4 ≠ 0 then "**" ++ text ++ "**" else text
  let text := if flags &&& 2 ^ 1 ≠ 0 then "*" ++ text ++ "*" else text
  text

/-- Lines 54-75: the paragraph fragment a block contributes under
`preserve_formatting`.  Per line, the formatted span texts are collected and
the line contributes their concatenation when the span list is non-empty; a
block with at least one contributing line emits the space-join of its lines
plus the paragraph terminator. -/
def blockParagraph : Block → Option String
  | Block.nontext => none
  | Block.text lines =>
    let paragraph := lines.filterMap (fun l =>
      let lineText := l.spans.map (fun s => formatSpanText s.flags s.text)
      if lineText.isEmpty then none else some (String.join lineText))
    if paragraph.isEmpty then none else
      some (String.intercalate " " paragraph ++ "\n\n")

/-- Text fragments of a page under `preserve_formatting=True`. -/
def pageFragmentsFormatted (p : Page) : List String :=
  p.blocks.filterMap blockParagraph

/-- Python's `str.strip()`: remove leading and trailing whitespace. -/
def strip (s : String) : String :=
  ⟨((s.data.dropWhile Char.isWhitespace).reverse.dropWhile Char.isWhitespace).reverse⟩

/-- Lines 76-80: text fragments of a page under `preserve_formatting=False`:
the plain text (plus paragraph terminator) when it is non-empty after
stripping (`if text.strip():`), nothing otherwise. -/
def pageFragmentsSimple (p : Page) : List String :=
  if strip p.plainText = "" then [] else [p.plainText ++ "\n\n"]

/-- Line 90: the image file name, from page number, per-page ordinal, and the
image's native extension only. -/
def imageName (pageNum imgIndex : Nat) (ext : String) : String :=
  "image_page" ++ toString pageNum ++ "_" ++ toString imgIndex ++ "." ++ ext

/-- Lines 84-94: the image writes (full path, bytes) and Markdown fragments of
one page, enumerating images from ordinal `idx` (the source starts at 1). -/
def imagesFrom (dir : List String) (pageNum idx : Nat) :
    List PdfImage → List (List String × String) × List String
  | [] => ([], [])
  | img :: rest =>
    let name := imageName pageNum idx img.ext
    let r := imagesFrom dir pageNum (idx + 1) rest
    ((dir ++ [name], img.bytes) :: r.1,
      ("![" ++ name ++ "](" ++ name ++ ")\n\n") :: r.2)

/-- Outcome of the page loop: either every page was processed, or one raised
during text extraction; either way the image writes already issued persist. -/
inductive PagesResult where
  | ok (fragments : List String) (writes : List (List String × String))
  | raised (writes : List (List String × String))
deriving Repr, DecidableEq

/-- The writes a `PagesResult` carries. -/
def PagesResult.writesOf : PagesResult → List (List String × String)
  | .ok _ ws => ws
  | .raised ws => ws

/-- Whether the page loop completed without an exception. -/
def PagesResult.isOk : PagesResult → Bool
  | .ok _ _ => true
  | .raised _ => false

/-- Lines 49-94: process pages in order starting at number `pageNum`.  Each
page contributes its text fragments then, when an output path was given, its
image fragments; a raising page aborts the loop, keeping earlier writes. -/
def runPages (preserve : Bool) (imageDir : Option (List String)) (pageNum : Nat) :
    List Page → PagesResult
  | [] => .ok [] []
  | p :: rest =>
    if p.raisesOnExtract then .raised []
    else
      let textFrags := if preserve then pageFragmentsFormatted p else pageFragmentsSimple p
      let imgs :=
        match imageDir with
        | none => (([] : List (List String × String)), ([] : List String))
        | some dir => imagesFrom dir pageNum 1 p.images
      match runPages preserve imageDir (pageNum + 1) rest with
      | .ok fs ws => .ok (textFrags ++ imgs.2 ++ fs) (imgs.1 ++ ws)
      | .raised ws => .raised (imgs.1 ++ ws)

/-- Lines 39-46: the metadata header fragments, one per truthy field. -/
def headerFragments (m : Metadata) : List String :=
  (if truthy m.title then ["# " ++ m.title.getD "" ++ "\n\n"] else []) ++
  (if truthy m.author then ["**Author:** " ++ m.author.getD "" ++ "\n\n"] else []) ++
  (if truthy m.subject then ["**Subject:** " ++ m.subject.getD "" ++ "\n\n"] else [])

/-- Observable outcome of one `pdf_to_markdown` call: whether `doc.close()`
ran, the returned value (`none` models Python's `None` after the `except`
handler), and the file writes issued, in order. -/
structure ConvOutcome where
  closed : Bool
  result : Option String
  writes : List (List String × String)
deriving Repr, DecidableEq

/-- Lines 20-110, `pdf_to_markdown`.  `doc?` is `none` when `fitz.open`
raises; `writeRaises` models `output_path.write_text` raising.  The single
broad `except` turns any raise into a `none` result; `doc.close()` (line 96)
sits inside the `try` after the page loop and before the write, so it runs
exactly when no page raised. -/
def pdf_to_markdown (doc? : Option Document) (outputPath : Option PPath)
    (preserveFormatting : Bool) (writeRaises : Bool) : ConvOutcome :=
  match doc? with
  | none => { closed := false, result := none, writes := [] }
  | some doc =>
    let header := headerFragments doc.metadata ++ ["---\n\n"]
    match runPages preserveFormatting (outputPath.map imageDirOf) 1 doc.pages with
    | .raised ws => { closed := false, result := none, writes := ws }
    | .ok frags ws =>
      let markdownText := String.join (header ++ frags)
      match outputPath with
      | none => { closed := true, result := some markdownText, writes := ws }
      | some op =>
        if writeRaises then { closed := true, result := none, writes := ws }
        else
          { closed := true, result := some markdownText
            writes := ws ++ [(op.components, markdownText)] }

/-- One input file of a batch run (`main`, lines 253-312), with the
observations the code makes of it: whether `pdf_path.exists()` holds, whether
`pdf_path.suffix.lower() == ".pdf"` holds, and the value `pdf_to_markdown`
returns for it. -/
structure BatchFile where
  onDisk : Bool
  suffixIsPdf : Bool
  convertResult : Option String
deriving Repr, DecidableEq

/-- Lines 256-310: a batch input lands in `failed_files` when it is missing,
has a non-PDF suffix, or its conversion returns `None`; otherwise it lands in
`successful_files`. -/
def fileFailed (f : BatchFile) : Bool :=
  if !f.onDisk then true
  else if !f.suffixIsPdf then true
  else f.convertResult.isNone

/-- Lines 236-320 of `main` plus `sys.exit(main())`: the process exit status.
In watch mode `main` returns 0 after `watch_folder` returns.  With an empty
input list, `parser.error` is called; per argparse's documented contract,
`ArgumentParser.error` terminates the process with exit status 2.  Otherwise
the status is 1 when any file failed, 0 when any succeeded, else 1. -/
def mainExit (watchMode : Bool) (files : List BatchFile) : Nat :=
  if watchMode then 0
  else if files.isEmpty then 2
  else
    let failed := files.filter fileFailed
    let successful := files.filter (fun f => !fileFailed f)
    if !failed.isEmpty then 1
    else if !successful.isEmpty then 0
    else 1

/-- A PDF file found by the watcher's initial sweep (lines 139-146), with the
observation whether its corresponding `.md` output already exists. -/
structure InitFile where
  name : String
  outputAlreadyExists : Bool
deriving Repr, DecidableEq

/-- Lines 139-146: the initial sweep marks every listed file as seen and
converts exactly those whose output does not already exist.  Returns the seen
set (as a list) and the converted names. -/
def initialSweep (files : List InitFile) : List String × List String :=
  (files.map (fun f => f.name),
   (files.filter (fun f => !f.outputAlreadyExists)).map (fun f => f.name))

/-- A file listed by one polling cycle (line 153), with the observations made
of it after the 1-second settling sleep (line 158): whether it still exists
and its size at that moment. -/
structure WatchObs where
  name : String
  stillThere : Bool
  sizeAfterDelay : Nat
deriving Repr, DecidableEq

/-- Lines 156-166: process the newly observed files of one cycle in order.
A file that, after the settling delay, still exists with non-zero size is
marked seen and converted; otherwise it is neither. -/
def processNew (seen : List String) : List WatchObs → List String × List String
  | [] => (seen, [])
  | o :: rest =>
    if o.stillThere && decide (0 < o.sizeAfterDelay) then
      let r := processNew (o.name :: seen) rest
      (r.1, o.name :: r.2)
    else processNew seen rest

/-- One polling cycle's directory listing (`folder.glob("*.pdf")`), each entry
paired with its post-delay observations. -/
structure PollCycle where
  current : List WatchObs
deriving Repr, DecidableEq

/-- Lines 151-168, one iteration: the new files are the listed ones not yet
seen; each is settled and possibly converted. -/
def runCycle (seen : List String) (c : PollCycle) : List String × List String :=
  processNew seen (c.current.filter (fun o => !seen.contains o.name))

/-- The names converted inside the polling loop over a list of cycles,
threading the seen set. -/
def loopConversions (seen : List String) : List PollCycle → List String
  | [] => []
  | c :: rest => (runCycle seen c).2 ++ loopConversions (runCycle seen c).1 rest

/-- `watch_folder`, lines 135-168: all names converted during one watch
session, initial sweep first, then the polling cycles. -/
def watchConversions (init : List InitFile) (cycles : List PollCycle) : List String :=
  (initialSweep init).2 ++ loopConversions (initialSweep init).1 cycles

/-- The image writes of a whole successful page loop over `pages`, numbering
pages from `n`: each page's image writes in order. -/
def pagesWrites (dir : List String) (n : Nat) : List Page → List (List String × String)
  | [] => []
  | p :: rest => (imagesFrom dir n 1 p.images).1 ++ pagesWrites dir (n + 1) rest

/-- A filesystem: file contents by full path, `none` for a missing file. -/
abbrev FileStore : Type := List String → Option String

/-- Apply a list of writes in order; a later write to the same path overwrites
an earlier one, as `write_bytes`/`write_text` do. -/
def applyWrites (fs : FileStore) : List (List String × String) → FileStore
  | [] => fs
  | (n, b) :: ws => applyWrites (fun m => if m = n then some b else fs m) ws

/-- The content of the chronologically last write to path `m` in a write list,
if any. -/
def lastWrite (m : List String) : List (List String × String) → Option String
  | [] => none
  | (n, b) :: ws =>
    match lastWrite m ws with
    | some c => some c
    | none => if m = n then some b else none

theorem stringJoin_append (a b : List String) :
    String.join (a ++ b) = String.join a ++ String.join b := by
  apply String.ext
  simp

theorem stringJoin_cons (a : String) (l : List String) :
    String.join (a :: l) = a ++ String.join l := by
  apply String.ext
  simp

theorem runPages_ok_of_no_raise (preserve : Bool) (dir : Option (List String))
    (n : Nat) (pages : List Page)
    (h : ∀ p ∈ pages, p.raisesOnExtract = false) :
    ∃ fs ws, runPages preserve dir n pages = .ok fs ws := by
  induction pages generalizing n with
  | nil => exact ⟨[], [], rfl⟩
  | cons p rest ih =>
    have hp : p.raisesOnExtract = false := h p (by simp)
    obtain ⟨fs, ws, hrec⟩ := ih (n + 1) (fun q hq => h q (by simp [hq]))
    refine ⟨?_, ?_, ?_⟩
    · exact (if preserve then pageFragmentsFormatted p else pageFragmentsSimple p) ++
        (match dir with
          | none => (([] : List (List String × String)), ([] : List String))
          | some d => imagesFrom d n 1 p.images).2 ++ fs
    · exact (match dir with
        | none => (([] : List (List String × String)), ([] : List String))
        | some d => imagesFrom d n 1 p.images).1 ++ ws
    · simp [runPages, hp, hrec]

theorem runPages_none_writes (preserve : Bool) (n : Nat) (pages : List Page) :
    (runPages preserve none n pages).writesOf = [] := by
  induction pages generalizing n with
  | nil => rfl
  | cons p rest ih =>
    by_cases hr : p.raisesOnExtract = true
    · simp [runPages, hr, PagesResult.writesOf]
    · simp only [Bool.not_eq_true] at hr
      have hrest := ih (n + 1)
      cases hrec : runPages preserve none (n + 1) rest with
      | ok fs ws =>
        rw [hrec] at hrest
        simp only [PagesResult.writesOf] at hrest
        simp [runPages, hr, hrec, PagesResult.writesOf, hrest]
      | raised ws =>
        rw [hrec] at hrest
        simp only [PagesResult.writesOf] at hrest
        simp [runPages, hr, hrec, PagesResult.writesOf, hrest]

/-- C1: with `preserve_formatting`, a bold-flagged span (`flags & 2**4`) is
wrapped in double asterisks, an italic-flagged span (`flags & 2**1`) in single
asterisks, and a span with both flags yields the string with the double
asterisks outermost around the single ones. -/
theorem span_emphasis_wrapping (flags : Nat) (text : String) :
    (flags &&& 2 ^ 4 ≠ 0 → flags &&& 2 ^ 1 = 0 →
      formatSpanText flags text = "**" ++ text ++ "**")
  ∧ (flags &&& 2 ^ 1 ≠ 0 → flags &&& 2 ^ 4 = 0 →
      formatSpanText flags text = "*" ++ text ++ "*")
  ∧ (flags &&& 2 ^ 4 ≠ 0 → flags &&& 2 ^ 1 ≠ 0 →
      formatSpanText flags text = "**" ++ ("*" ++ text ++ "*") ++ "**") := by
  refine ⟨fun h1 h2 => ?_, fun h1 h2 => ?_, fun h1 h2 => ?_⟩ <;>
  · apply String.ext
    norm_num at h1 h2
    simp [formatSpanText, h1, h2]

theorem span_emphasis_wrapping_witness :
    formatSpanText 18 "T" = "**" ++ ("*" ++ "T" ++ "*") ++ "**" :=
  (span_emphasis_wrapping 18 "T").2.2 (by decide) (by decide)

/-- C8: when no destination path is supplied, the converter performs no file
writes at all, on every execution path (success, extraction failure, any
formatting mode); its only observable result is the returned string. -/
theorem no_destination_no_writes (doc? : Option Document)
    (preserve wr : Bool) :
    (pdf_to_markdown doc? none preserve wr).writes = [] := by
  cases doc? with
  | none => rfl
  | some doc =>
    have h := runPages_none_writes preserve 1 doc.pages
    cases hrec : runPages preserve none 1 doc.pages with
    | ok fs ws =>
      rw [hrec] at h
      simp only [PagesResult.writesOf] at h
      simp [pdf_to_markdown, hrec, h]
    | raised ws =>
      rw [hrec] at h
      simp only [PagesResult.writesOf] at h
      simp [pdf_to_markdown, hrec, h]

theorem runPages_no_content (preserve : Bool) (n : Nat) (pages : List Page)
    (h : ∀ p ∈ pages, p.blocks = [] ∧ strip p.plainText = "" ∧ p.raisesOnExtract = false) :
    runPages preserve none n pages = .ok [] [] := by
  induction pages generalizing n with
  | nil => rfl
  | cons p rest ih =>
    obtain ⟨hb, ht, hr⟩ := h p (by simp)
    have hrec := ih (n + 1) (fun q hq => h q (by simp [hq]))
    simp [runPages, hr, hrec, pageFragmentsFormatted, pageFragmentsSimple, hb, ht]

/-- C2 counterexample: a document whose single page raises during text
extraction takes the `except` path before reaching `doc.close()` (line 96 sits
inside the `try`, with no `finally`), so the handle is not closed on that
execution path, contradicting the claim that closing is unconditional. -/
theorem close_skipped_on_extraction_error :
    (pdf_to_markdown (some ⟨⟨none, none, none⟩, [⟨[], "", [], true⟩]⟩)
      none true false).closed = false := rfl

/-- C2 (amended): the document handle is closed on every execution path on
which page extraction completes without raising; in particular the Markdown
write happens only after the close, so a failing write still leaves the handle
closed.  (An exception raised during extraction skips the close.) -/
theorem closed_after_successful_extraction (doc : Document) (out : Option PPath)
    (preserve wr : Bool)
    (h : ∀ p ∈ doc.pages, p.raisesOnExtract = false) :
    (pdf_to_markdown (some doc) out preserve wr).closed = true := by
  cases out with
  | none =>
    obtain ⟨fs, ws, hrec⟩ := runPages_ok_of_no_raise preserve none 1 doc.pages h
    simp [pdf_to_markdown, hrec]
  | some op =>
    obtain ⟨fs, ws, hrec⟩ :=
      runPages_ok_of_no_raise preserve (some (imageDirOf op)) 1 doc.pages h
    cases wr <;> simp [pdf_to_markdown, hrec]

theorem closed_after_successful_extraction_witness :
    (pdf_to_markdown (some ⟨⟨none, none, none⟩, [⟨[], "hi", [], false⟩]⟩)
      none true true).closed = true :=
  closed_after_successful_extraction _ none true true (by simp)

/-- C3: for a document whose pages yield no extractable text, the returned
Markdown is the joined header fragments followed by exactly the separator
line; each of the three header fragments appears in that string if and only if
its metadata field is truthy, and with no truthy metadata field the output is
exactly `"---\n\n"`. -/
theorem no_metadata_no_text_output (doc : Document) (preserve : Bool)
    (hp : ∀ p ∈ doc.pages,
      p.blocks = [] ∧ strip p.plainText = "" ∧ p.raisesOnExtract = false) :
    ((truthy doc.metadata.title = false → truthy doc.metadata.author = false →
        truthy doc.metadata.subject = false →
        (pdf_to_markdown (some doc) none preserve false).result = some "---\n\n")
  ∧ (pdf_to_markdown (some doc) none preserve false).result =
      some (String.join (headerFragments doc.metadata) ++ "---\n\n")
  ∧ ∀ m : Metadata,
      String.join (headerFragments m) =
        (if truthy m.title then "# " ++ m.title.getD "" ++ "\n\n" else "") ++
        ((if truthy m.author then "**Author:** " ++ m.author.getD "" ++ "\n\n" else "") ++
         (if truthy m.subject then "**Subject:** " ++ m.subject.getD "" ++ "\n\n" else ""))) := by
  have hrec := runPages_no_content preserve 1 doc.pages hp
  have hmain : (pdf_to_markdown (some doc) none preserve false).result =
      some (String.join (headerFragments doc.metadata) ++ "---\n\n") := by
    simp only [pdf_to_markdown, Option.map_none', hrec]
    congr 1
    apply String.ext
    simp
  refine ⟨fun h1 h2 h3 => ?_, hmain, fun m => ?_⟩
  · rw [hmain]
    simp [headerFragments, h1, h2, h3, String.join]
  · apply String.ext
    by_cases t1 : truthy m.title <;> by_cases t2 : truthy m.author <;>
      by_cases t3 : truthy m.subject <;> simp [headerFragments, t1, t2, t3]

theorem no_metadata_no_text_output_witness :
    (pdf_to_markdown (some ⟨⟨none, none, none⟩, []⟩) none true false).result =
      some "---\n\n" :=
  (no_metadata_no_text_output ⟨⟨none, none, none⟩, []⟩ true (by simp)).1 rfl rfl rfl

/-- C10 counterexample: the emptiness check of line 71 of the source
(`if line_text:`) tests the list of span texts, not the concatenated string,
so a line with one span of empty text still contributes, and a block
consisting of such a line emits the bare paragraph terminator `"\n\n"` — a
stray blank-line fragment, contradicting the claim that a line whose spans all
yield empty concatenations contributes no line entry. -/
theorem empty_span_blank_fragment :
    blockParagraph (Block.text [⟨[⟨"", 0⟩]⟩]) = some "\n\n"
  ∧ (pdf_to_markdown (some ⟨⟨none, none, none⟩,
      [⟨[Block.text [⟨[⟨"", 0⟩]⟩]], "", [], false⟩]⟩) none true false).result =
      some "---\n\n\n\n" :=
  ⟨rfl, rfl⟩

/-- C10 (amended): under `preserve_formatting`, a text block emits no fragment
exactly when every one of its lines has an empty span list (a span-less line
contributes no line entry); every fragment that is emitted ends in the
paragraph terminator and is in particular a non-empty string, but a line whose
spans yield empty strings still contributes, so an emitted fragment may equal
the bare terminator `"\n\n"`. -/
theorem block_fragment_emptiness (lines : List Line) :
    (blockParagraph (Block.text lines) = none ↔ ∀ l ∈ lines, l.spans = [])
  ∧ (∀ b : Block, ∀ s : String, blockParagraph b = some s → s ≠ "")
  ∧ (∀ p : Page, ∀ s ∈ pageFragmentsFormatted p, s ≠ "") := by
  have h2 : ∀ b : Block, ∀ s : String, blockParagraph b = some s → s ≠ "" := by
    intro b s hb
    cases b with
    | nontext => simp [blockParagraph] at hb
    | text ls =>
      simp [blockParagraph] at hb
      obtain ⟨-, hb2⟩ := hb
      intro hemp
      rw [hemp] at hb2
      have := congrArg String.data hb2
      simp at this
  refine ⟨by simp [blockParagraph], h2, ?_⟩
  · intro p s hs
    rw [pageFragmentsFormatted, List.mem_filterMap] at hs
    obtain ⟨b, _, hb⟩ := hs
    exact h2 b s hb

theorem block_fragment_emptiness_witness :
    blockParagraph (Block.text [⟨[]⟩]) = none ∧ ("a\n\n" : String) ≠ "" :=
  ⟨(block_fragment_emptiness [⟨[]⟩]).1.mpr (by simp),
   (block_fragment_emptiness [⟨[]⟩]).2.1 (Block.text [⟨[⟨"a", 0⟩]⟩]) "a\n\n" (by decide)⟩

theorem runPages_simple (n : Nat) (pages : List Page)
    (h : ∀ p ∈ pages, p.raisesOnExtract = false) :
    ∃ fs, runPages false none n pages = .ok fs [] ∧
      String.join fs = String.join (pages.map (fun p =>
        if strip p.plainText = "" then "" else p.plainText ++ "\n\n")) := by
  induction pages generalizing n with
  | nil => exact ⟨[], rfl, rfl⟩
  | cons p rest ih =>
    have hp := h p (by simp)
    obtain ⟨fs, hrec, hjoin⟩ := ih (n + 1) (fun q hq => h q (by simp [hq]))
    refine ⟨pageFragmentsSimple p ++ [] ++ fs, ?_, ?_⟩
    · simp [runPages, hp, hrec]
    · have hj := congrArg String.data hjoin
      simp at hj
      apply String.ext
      by_cases ht : strip p.plainText = "" <;>
        simp [pageFragmentsSimple, ht, hj]

/-- C4: with `preserve_formatting=false`, the returned Markdown is the header
plus separator followed, page by page, by the page's plain extracted text
verbatim plus the paragraph terminator, emitted exactly when that text is
non-empty after trimming; the pages' block/span data (hence the font flags)
have no effect: pages with the same plain text yield the same output. -/
theorem simple_mode_verbatim (m : Metadata) (pages : List Page)
    (h : ∀ p ∈ pages, p.raisesOnExtract = false) :
    ((pdf_to_markdown (some ⟨m, pages⟩) none false false).result =
      some (String.join (headerFragments m) ++ "---\n\n" ++
        String.join (pages.map (fun p =>
          if strip p.plainText = "" then "" else p.plainText ++ "\n\n")))
  ∧ ∀ pages2 : List Page, (∀ q ∈ pages2, q.raisesOnExtract = false) →
      pages2.map Page.plainText = pages.map Page.plainText →
      (pdf_to_markdown (some ⟨m, pages2⟩) none false false).result =
      (pdf_to_markdown (some ⟨m, pages⟩) none false false).result) := by
  have hchar : ∀ ps : List Page, (∀ p ∈ ps, p.raisesOnExtract = false) →
      (pdf_to_markdown (some ⟨m, ps⟩) none false false).result =
      some (String.join (headerFragments m) ++ "---\n\n" ++
        String.join (ps.map (fun p =>
          if strip p.plainText = "" then "" else p.plainText ++ "\n\n"))) := by
    intro ps hps
    obtain ⟨fs, hrec, hjoin⟩ := runPages_simple 1 ps hps
    simp only [pdf_to_markdown, Option.map_none', hrec]
    congr 1
    have hj := congrArg String.data hjoin
    simp at hj
    apply String.ext
    simp [hj]
  refine ⟨hchar pages h, fun pages2 h2 hmap => ?_⟩
  rw [hchar pages h, hchar pages2 h2]
  have hmaps : pages2.map (fun p =>
      if strip p.plainText = "" then "" else p.plainText ++ "\n\n") =
    pages.map (fun p =>
      if strip p.plainText = "" then "" else p.plainText ++ "\n\n") := by
    have := congrArg
      (List.map (fun t : String => if strip t = "" then "" else t ++ "\n\n")) hmap
    simpa [List.map_map, Function.comp] using this
  rw [hmaps]

theorem simple_mode_verbatim_witness :
    (pdf_to_markdown (some ⟨⟨none, none, none⟩,
      [⟨[Block.text [⟨[⟨"ignored", 18⟩]⟩]], "hello", [], false⟩]⟩)
      none false false).result = some "---\n\nhello\n\n" := by
  have h := (simple_mode_verbatim ⟨none, none, none⟩
    [⟨[Block.text [⟨[⟨"ignored", 18⟩]⟩]], "hello", [], false⟩] (by simp)).1
  rw [h]
  rfl

/-- C5 counterexample: a batch run with an empty input list never reaches the
exit-code computation: `parser.error` terminates the process with argparse's
usage-error status 2, not with the claimed status 1. -/
theorem empty_batch_exit_two : mainExit false [] = 2 ∧ mainExit false [] ≠ 1 := by
  decide

/-- C5 (amended): for a batch run with a non-empty input list, the exit code
is 0 exactly when at least one file converted and none failed, and 1 exactly
when some file failed (was missing, had a non-PDF extension, or its conversion
returned `None`); a run with no input files is instead rejected by argument
parsing with status 2, and a watch-mode run returns 0. -/
theorem batch_exit_codes (files : List BatchFile) (hne : files ≠ []) :
    (mainExit false files = 0 ↔
      ((∃ f ∈ files, fileFailed f = false) ∧ ∀ f ∈ files, fileFailed f = false))
  ∧ (mainExit false files = 1 ↔ ∃ f ∈ files, fileFailed f = true)
  ∧ (∀ files2 : List BatchFile, mainExit true files2 = 0) := by
  have hie : files.isEmpty = false := by
    rw [List.isEmpty_eq_false_iff_exists_mem]
    obtain ⟨f, hf⟩ := List.exists_mem_of_ne_nil files hne
    exact ⟨f, hf⟩
  by_cases hfail : (files.filter fileFailed).isEmpty
  · have hall : ∀ f ∈ files, fileFailed f = false := by
      rw [List.isEmpty_iff, List.filter_eq_nil_iff] at hfail
      intro f hf
      simpa using hfail f hf
    have hsucc : files.filter (fun f => !fileFailed f) = files := by
      rw [List.filter_eq_self]
      intro f hf
      simp [hall f hf]
    have hcode : mainExit false files = 0 := by
      simp [mainExit, hie, hfail, hsucc]
    refine ⟨?_, ?_, fun files2 => by simp [mainExit]⟩
    · rw [hcode]
      refine ⟨fun _ => ⟨?_, hall⟩, fun _ => rfl⟩
      obtain ⟨f, hf⟩ := List.exists_mem_of_ne_nil files hne
      exact ⟨f, hf, hall f hf⟩
    · rw [hcode]
      constructor
      · intro h01
        exact absurd h01 (by decide)
      · rintro ⟨f, hf, hff⟩
        exact absurd (hall f hf) (by simp [hff])
  · have hex : ∃ f ∈ files, fileFailed f = true := by
      rw [List.isEmpty_iff] at hfail
      obtain ⟨f, hf⟩ := List.exists_mem_of_ne_nil _ hfail
      rw [List.mem_filter] at hf
      exact ⟨f, hf.1, hf.2⟩
    have hcode : mainExit false files = 1 := by
      simp only [List.isEmpty_iff] at hfail
      simp [mainExit, hie, hfail]
    refine ⟨?_, ?_, fun files2 => by simp [mainExit]⟩
    · rw [hcode]
      constructor
      · intro h10
        exact absurd h10 (by decide)
      · rintro ⟨-, hall⟩
        obtain ⟨f, hf, hff⟩ := hex
        exact absurd (hall f hf) (by simp [hff])
    · rw [hcode]
      exact ⟨fun _ => hex, fun _ => rfl⟩

theorem batch_exit_codes_witness :
    mainExit false [⟨true, true, some "ok"⟩] = 0 :=
  ((batch_exit_codes [⟨true, true, some "ok"⟩] (by simp)).1).mpr
    ⟨⟨⟨true, true, some "ok"⟩, by simp, by decide⟩, by
      intro f hf
      rw [List.mem_singleton] at hf
      rw [hf]
      decide⟩

theorem applyWrites_lastWrite_none (fs : FileStore)
    (ws : List (List String × String)) (m : List String)
    (h : lastWrite m ws = none) :
    applyWrites fs ws m = fs m := by
  induction ws generalizing fs with
  | nil => rfl
  | cons e rest ih =>
    obtain ⟨n, c⟩ := e
    rw [lastWrite] at h
    cases hrec : lastWrite m rest with
    | some d =>
      rw [hrec] at h
      exact absurd h (by simp)
    | none =>
      rw [hrec] at h
      simp only at h
      by_cases hm : m = n
      · rw [if_pos hm] at h
        exact absurd h (by simp)
      · rw [applyWrites, ih _ hrec]
        simp [hm]

theorem applyWrites_lastWrite_some (fs : FileStore)
    (ws : List (List String × String)) (m : List String) (b : String)
    (h : lastWrite m ws = some b) :
    applyWrites fs ws m = some b := by
  induction ws generalizing fs with
  | nil => simp [lastWrite] at h
  | cons e rest ih =>
    obtain ⟨n, c⟩ := e
    rw [lastWrite] at h
    rw [applyWrites]
    cases hrec : lastWrite m rest with
    | some d =>
      rw [hrec] at h
      simp only at h
      exact ih _ (hrec.trans h)
    | none =>
      rw [hrec] at h
      simp only at h
      by_cases hm : m = n
      · rw [if_pos hm] at h
        rw [applyWrites_lastWrite_none _ _ _ hrec]
        rw [if_pos hm]
        exact h
      · rw [if_neg hm] at h
        exact absurd h (by simp)

theorem applyWrites_idem (fs : FileStore) (ws : List (List String × String)) :
    applyWrites (applyWrites fs ws) ws = applyWrites fs ws := by
  funext m
  cases hrec : lastWrite m ws with
  | some b =>
    rw [applyWrites_lastWrite_some _ _ _ _ hrec,
      applyWrites_lastWrite_some _ _ _ _ hrec]
  | none =>
    rw [applyWrites_lastWrite_none _ _ _ hrec,
      applyWrites_lastWrite_none _ _ _ hrec]

/-- C7: the converter is a pure function of the parsed document content and
the settings, so two calls on the same content return identical outcomes (the
same Markdown string and the same write list, names and bytes included); and
replaying the second call's writes over the first call's leaves every file's
content unchanged, since each write overwrites by path. -/
theorem convert_idempotent (doc? : Option Document) (out : Option PPath)
    (preserve : Bool) (fs : FileStore) :
    pdf_to_markdown doc? out preserve false = pdf_to_markdown doc? out preserve false
  ∧ applyWrites (applyWrites fs (pdf_to_markdown doc? out preserve false).writes)
      (pdf_to_markdown doc? out preserve false).writes =
    applyWrites fs (pdf_to_markdown doc? out preserve false).writes :=
  ⟨rfl, applyWrites_idem fs _⟩

theorem processNew_seen_mono (seen : List String) (l : List WatchObs) :
    ∀ x ∈ seen, x ∈ (processNew seen l).1 := by
  induction l generalizing seen with
  | nil => intro x hx; exact hx
  | cons o rest ih =>
    intro x hx
    by_cases hc : (o.stillThere && decide (0 < o.sizeAfterDelay)) = true
    · simp only [processNew, hc, if_true]
      exact ih (o.name :: seen) x (by simp [hx])
    · simp only [processNew, hc, if_false]
      exact ih seen x hx

theorem processNew_conversions_sound (seen : List String) (l : List WatchObs) :
    ∀ n ∈ (processNew seen l).2,
      ∃ o ∈ l, o.name = n ∧ o.stillThere = true ∧ 0 < o.sizeAfterDelay := by
  induction l generalizing seen with
  | nil => intro n hn; simp [processNew] at hn
  | cons o rest ih =>
    intro n hn
    by_cases hc : (o.stillThere && decide (0 < o.sizeAfterDelay)) = true
    · simp only [processNew, hc, if_true, List.mem_cons] at hn
      rcases hn with hn | hn
      · rw [Bool.and_eq_true, decide_eq_true_eq] at hc
        exact ⟨o, by simp, hn.symm, hc.1, hc.2⟩
      · obtain ⟨o2, ho2, hrest⟩ := ih _ n hn
        exact ⟨o2, by simp [ho2], hrest⟩
    · simp only [processNew, hc, if_false] at hn
      obtain ⟨o2, ho2, hrest⟩ := ih _ n hn
      exact ⟨o2, by simp [ho2], hrest⟩

theorem runCycle_conversions_sound (seen : List String) (c : PollCycle) :
    ∀ n ∈ (runCycle seen c).2,
      ∃ o ∈ c.current, o.name = n ∧ o.stillThere = true ∧ 0 < o.sizeAfterDelay
        ∧ n ∉ seen := by
  intro n hn
  obtain ⟨o, ho, hname, hthere, hsize⟩ := processNew_conversions_sound seen _ n hn
  rw [List.mem_filter] at ho
  refine ⟨o, ho.1, hname, hthere, hsize, ?_⟩
  have hnc := ho.2
  simp only [Bool.not_eq_true'] at hnc
  intro hmem
  rw [← hname] at hmem
  simp [hmem] at hnc

theorem loopConversions_not_mem (seen : List String) (cycles : List PollCycle)
    (n : String) (h : n ∈ seen) : n ∉ loopConversions seen cycles := by
  induction cycles generalizing seen with
  | nil => simp [loopConversions]
  | cons c rest ih =>
    simp only [loopConversions, List.mem_append]
    push_neg
    constructor
    · intro hn
      obtain ⟨o, -, -, -, -, hns⟩ := runCycle_conversions_sound seen c n hn
      exact hns h
    · exact ih _ (processNew_seen_mono seen _ n h)

/-- C6: in the modelled watch loop, a name is converted in a polling cycle
only if it comes from a listed file whose post-settling-delay observation
shows it still exists with non-zero size (so a file observed at zero size is
not converted in that cycle); and a file present at watcher start whose
Markdown output already exists is marked seen without converting and, the seen
set growing monotonically, is never converted in any later cycle either. -/
theorem watch_settling_and_seen (init : List InitFile) (cycles : List PollCycle)
    (f : InitFile) (hf : f ∈ init) (hout : f.outputAlreadyExists = true)
    (hnd : (init.map (fun g => g.name)).Nodup) :
    f.name ∉ watchConversions init cycles
  ∧ ∀ (seen : List String) (c : PollCycle), ∀ n ∈ (runCycle seen c).2,
      ∃ o ∈ c.current, o.name = n ∧ o.stillThere = true ∧ 0 < o.sizeAfterDelay := by
  constructor
  · rw [watchConversions, List.mem_append]
    push_neg
    constructor
    · rw [initialSweep]
      simp only [List.mem_map]
      rintro ⟨g, hg, hgname⟩
      rw [List.mem_filter] at hg
      have hgf : g = f := List.inj_on_of_nodup_map hnd hg.1 hf hgname
      rw [hgf] at hg
      simp [hout] at hg
    · apply loopConversions_not_mem
      rw [initialSweep]
      exact List.mem_map.mpr ⟨f, hf, rfl⟩
  · intro seen c n hn
    obtain ⟨o, ho, hn1, hn2, hn3, -⟩ := runCycle_conversions_sound seen c n hn
    exact ⟨o, ho, hn1, hn2, hn3⟩

theorem watch_settling_and_seen_witness :
    ("a" : String) ∉ watchConversions [⟨"a", true⟩]
      [⟨[⟨"a", true, 5⟩, ⟨"b", true, 3⟩]⟩] :=
  (watch_settling_and_seen [⟨"a", true⟩] [⟨[⟨"a", true, 5⟩, ⟨"b", true, 3⟩]⟩]
    ⟨"a", true⟩ (by simp) rfl (by simp)).1

theorem imagesFrom_mem (dir : List String) (pageNum : Nat) (imgs : List PdfImage)
    (idx j : Nat) (img : PdfImage) (hj : imgs[j]? = some img) :
    (dir ++ [imageName pageNum (idx + j) img.ext], img.bytes) ∈
      (imagesFrom dir pageNum idx imgs).1 := by
  induction imgs generalizing idx j with
  | nil => simp at hj
  | cons a rest ih =>
    cases j with
    | zero =>
      rw [List.getElem?_cons_zero] at hj
      injection hj with hj
      rw [← hj]
      simp [imagesFrom]
    | succ j2 =>
      rw [List.getElem?_cons_succ] at hj
      have hmem := ih (idx + 1) j2 hj
      have harith : idx + 1 + j2 = idx + (j2 + 1) := by omega
      rw [harith] at hmem
      rw [imagesFrom]
      exact List.mem_cons_of_mem _ hmem

theorem pagesWrites_mem (dir : List String) (n k : Nat) (pages : List Page)
    (pg : Page) (hk : pages[k]? = some pg) (j : Nat) (img : PdfImage)
    (hj : pg.images[j]? = some img) :
    (dir ++ [imageName (n + k) (1 + j) img.ext], img.bytes) ∈
      pagesWrites dir n pages := by
  induction pages generalizing n k with
  | nil => simp at hk
  | cons p rest ih =>
    cases k with
    | zero =>
      rw [List.getElem?_cons_zero] at hk
      injection hk with hk
      rw [pagesWrites]
      apply List.mem_append_left
      have hmem := imagesFrom_mem dir (n + 0) pg.images 1 j img hj
      rw [hk]
      simpa using hmem
    | succ k2 =>
      rw [List.getElem?_cons_succ] at hk
      rw [pagesWrites]
      apply List.mem_append_right
      have hmem := ih (n + 1) k2 hk
      have harith : n + 1 + k2 = n + (k2 + 1) := by omega
      rw [harith] at hmem
      exact hmem

theorem runPages_writes_no_raise (preserve : Bool) (dir : List String) (n : Nat)
    (pages : List Page) (h : ∀ p ∈ pages, p.raisesOnExtract = false) :
    ∃ fs, runPages preserve (some dir) n pages =
      .ok fs (pagesWrites dir n pages) := by
  induction pages generalizing n with
  | nil => exact ⟨[], rfl⟩
  | cons p rest ih =>
    have hp := h p (by simp)
    obtain ⟨fs, hrec⟩ := ih (n + 1) (fun q hq => h q (by simp [hq]))
    refine ⟨(if preserve then pageFragmentsFormatted p else pageFragmentsSimple p) ++
      (imagesFrom dir n 1 p.images).2 ++ fs, ?_⟩
    simp [runPages, hp, hrec, pagesWrites]

theorem convert_writes_no_raise (doc : Document) (op : PPath) (preserve : Bool)
    (h : ∀ p ∈ doc.pages, p.raisesOnExtract = false) :
    ∃ md, (pdf_to_markdown (some doc) (some op) preserve false).writes =
      pagesWrites (imageDirOf op) 1 doc.pages ++ [(op.components, md)] := by
  obtain ⟨fs, hrec⟩ := runPages_writes_no_raise preserve (imageDirOf op) 1 doc.pages h
  refine ⟨String.join (headerFragments doc.metadata ++ ["---\n\n"] ++ fs), ?_⟩
  simp [pdf_to_markdown, hrec]

theorem lastWrite_isSome_of_mem (m : List String) (b : String)
    (ws : List (List String × String)) (h : (m, b) ∈ ws) :
    (lastWrite m ws).isSome = true := by
  induction ws with
  | nil => simp at h
  | cons e rest ih =>
    obtain ⟨n, c⟩ := e
    rw [lastWrite]
    cases hrec : lastWrite m rest with
    | some d => simp
    | none =>
      rw [List.mem_cons] at h
      rcases h with h | h
      · have hmn : m = n := congrArg Prod.fst h
        simp [hmn]
      · have := ih h
        rw [hrec] at this
        simp at this

/-- C9: the file name the converter gives an extracted image is built from the
page number, the per-page image ordinal and the image's native extension only
— never from the source PDF — so converting two different documents whose
destinations resolve to the same image directory writes an image found at the
same page and ordinal (with the same extension) under one and the same path;
after both conversions' writes are applied, that path's content is decided by
the later conversion alone (its last write to that path), independently of the
earlier conversion's writes. -/
theorem image_name_collision_overwrite
    (d1 d2 : Document) (o1 o2 : PPath) (pf1 pf2 : Bool) (fs : FileStore)
    (hdir : imageDirOf o1 = imageDirOf o2)
    (h1 : ∀ p ∈ d1.pages, p.raisesOnExtract = false)
    (h2 : ∀ p ∈ d2.pages, p.raisesOnExtract = false)
    (k j : Nat) (pg1 pg2 : Page) (img1 img2 : PdfImage)
    (hk1 : d1.pages[k]? = some pg1) (hj1 : pg1.images[j]? = some img1)
    (hk2 : d2.pages[k]? = some pg2) (hj2 : pg2.images[j]? = some img2)
    (hext : img1.ext = img2.ext) :
    (imageDirOf o1 ++ [imageName (1 + k) (1 + j) img1.ext], img1.bytes) ∈
      (pdf_to_markdown (some d1) (some o1) pf1 false).writes
  ∧ (imageDirOf o1 ++ [imageName (1 + k) (1 + j) img1.ext], img2.bytes) ∈
      (pdf_to_markdown (some d2) (some o2) pf2 false).writes
  ∧ (lastWrite (imageDirOf o1 ++ [imageName (1 + k) (1 + j) img1.ext])
      (pdf_to_markdown (some d2) (some o2) pf2 false).writes).isSome = true
  ∧ applyWrites
      (applyWrites fs (pdf_to_markdown (some d1) (some o1) pf1 false).writes)
      (pdf_to_markdown (some d2) (some o2) pf2 false).writes
      (imageDirOf o1 ++ [imageName (1 + k) (1 + j) img1.ext]) =
    lastWrite (imageDirOf o1 ++ [imageName (1 + k) (1 + j) img1.ext])
      (pdf_to_markdown (some d2) (some o2) pf2 false).writes := by
  obtain ⟨md1, hw1⟩ := convert_writes_no_raise d1 o1 pf1 h1
  obtain ⟨md2, hw2⟩ := convert_writes_no_raise d2 o2 pf2 h2
  have hm1 : (imageDirOf o1 ++ [imageName (1 + k) (1 + j) img1.ext], img1.bytes) ∈
      (pdf_to_markdown (some d1) (some o1) pf1 false).writes := by
    rw [hw1]
    exact List.mem_append_left _ (pagesWrites_mem _ 1 k _ pg1 hk1 j img1 hj1)
  have hm2 : (imageDirOf o1 ++ [imageName (1 + k) (1 + j) img1.ext], img2.bytes) ∈
      (pdf_to_markdown (some d2) (some o2) pf2 false).writes := by
    rw [hw2, hdir, hext]
    exact List.mem_append_left _ (pagesWrites_mem _ 1 k _ pg2 hk2 j img2 hj2)
  have hsome := lastWrite_isSome_of_mem _ _ _ hm2
  refine ⟨hm1, hm2, hsome, ?_⟩
  obtain ⟨b, hb⟩ := Option.isSome_iff_exists.mp hsome
  rw [hb]
  exact applyWrites_lastWrite_some _ _ _ _ hb

theorem image_name_collision_overwrite_witness :
    (["out", "image_page1_1.png"], ("B" : String)) ∈
      (pdf_to_markdown
        (some ⟨⟨none, none, none⟩, [⟨[], "", [⟨9, "B", "png"⟩], false⟩]⟩)
        (some ⟨["out"], "x.md"⟩) true false).writes :=
  (image_name_collision_overwrite
    ⟨⟨none, none, none⟩, [⟨[], "", [⟨7, "A", "png"⟩], false⟩]⟩
    ⟨⟨none, none, none⟩, [⟨[], "", [⟨9, "B", "png"⟩], false⟩]⟩
    ⟨["out"], "x.md"⟩ ⟨["out"], "x.md"⟩ true true (fun _ => none)
    rfl (by simp) (by simp) 0 0 ⟨[], "", [⟨7, "A", "png"⟩], false⟩
    ⟨[], "", [⟨9, "B", "png"⟩], false⟩ ⟨7, "A", "png"⟩ ⟨9, "B", "png"⟩
    rfl rfl rfl rfl rfl).2.1

end PdfToMarkd
